import Mathlib

set_option maxHeartbeats 1000000

/-!
Shallow embedding of the peerlinks sqlite storage layer (src/lib/storage.js).

Blobs (channel ids, hashes, payloads) are byte strings modelled as `List Nat`.
The two SQL tables are modelled as lists of rows; `PRIMARY KEY(hash)` together
with `REPLACE INTO` becomes "remove the row with the same hash, then append".
`ORDER BY` clauses become an insertion sort with the corresponding boolean
comparison (all sort keys in the queries below are distinct, hash being the
primary key, so any correct sort models the SQL order; the insertion sort used
here is stable, matching the stable array sort used for the index permutation
in getMessages).
-/

/-- Byte-wise blob comparison, as `Buffer.compare` and SQLite BLOB ordering:
compare byte by byte from the left, a strict prefix sorts first. -/
def blobCmp : List Nat → List Nat → Ordering
  | [], [] => .eq
  | [], _ :: _ => .lt
  | _ :: _, [] => .gt
  | a :: as, b :: bs =>
    match compare a b with
    | .eq => blobCmp as bs
    | o => o

/-- Row of the `messages` table: channel_id, hash, parent_hashes (encoded),
height, blob. `PRIMARY KEY(hash ASC)`. -/
structure MsgRow where
  channelId : List Nat
  hash : List Nat
  parentHashes : List Nat
  height : Nat
  blob : List Nat
  deriving DecidableEq, Repr

/-- Row of the `parents` table: channel_id, hash. `PRIMARY KEY(hash ASC)`. -/
structure ParentRow where
  channelId : List Nat
  hash : List Nat
  deriving DecidableEq, Repr

/-- The message/parent state of the store (the `entities` table plays no role
in the claims below). -/
structure Store where
  messages : List MsgRow
  parents : List ParentRow
  deriving DecidableEq, Repr

/-- The message object handed to `addMessage`. -/
structure Message where
  channelId : List Nat
  hash : List Nat
  parents : List (List Nat)
  height : Nat
  data : List Nat
  deriving DecidableEq, Repr

/-- The byte output of `encodeHashList`: each element emitted as one length
byte followed by its bytes. -/
def encBody (list : List (List Nat)) : List Nat :=
  list.foldr (fun elem acc => elem.length :: (elem ++ acc)) []

/-- `encodeHashList`: emit `encBody`; an element longer than 0xff bytes raises
`Error('Invalid hash')` before anything is written. -/
def encodeHashList (list : List (List Nat)) : Except String (List Nat) :=
  if list.any (fun elem => decide (255 < elem.length)) then .error "Invalid hash"
  else .ok (encBody list)

/-- Runner of the decode loop. Each iteration consumes at least the length
byte, so any fuel bounding the input length makes the recursion structural
without changing the computed value (see `decodeHashList_cons`). -/
def decodeGo : Nat → List Nat → List (List Nat)
  | _, [] => []
  | 0, _ :: _ => []
  | fuel + 1, len :: rest => rest.take len :: decodeGo fuel (rest.drop len)

/-- `decodeHashList`: read a length byte, slice that many bytes, repeat. -/
def decodeHashList (data : List Nat) : List (List Nat) :=
  decodeGo data.length data

/-- `REPLACE INTO messages` under `PRIMARY KEY(hash)`: drop any row with the
same hash, insert the new row. -/
def replaceMsg (tbl : List MsgRow) (r : MsgRow) : List MsgRow :=
  tbl.filter (fun q => !(q.hash == r.hash)) ++ [r]

/-- `REPLACE INTO parents` under `PRIMARY KEY(hash)`. -/
def replaceParent (tbl : List ParentRow) (r : ParentRow) : List ParentRow :=
  tbl.filter (fun q => !(q.hash == r.hash)) ++ [r]

/-- `addMessage`: encode the parent list (an oversized parent hash aborts the
call before any write), then within one transaction replace the message row
and a parent-edge row for every parent hash. -/
def addMessage (st : Store) (m : Message) : Except String Store :=
  match encodeHashList m.parents with
  | .error e => .error e
  | .ok enc =>
    .ok { messages := replaceMsg st.messages
            { channelId := m.channelId, hash := m.hash, parentHashes := enc,
              height := m.height, blob := m.data },
          parents := m.parents.foldl
            (fun tbl p => replaceParent tbl { channelId := m.channelId, hash := p })
            st.parents }

/-- The store right after `createTables` on a fresh database. -/
def emptyStore : Store := { messages := [], parents := [] }

/-- Run a sequence of `addMessage` calls from the empty store. -/
def runAdds (ms : List Message) : Except String Store :=
  ms.foldlM (fun st m => addMessage st m) emptyStore

/-- `WHERE channel_id == $channelId` on the messages table. -/
def channelMessages (st : Store) (cid : List Nat) : List MsgRow :=
  st.messages.filter (fun r => r.channelId == cid)

/-- `getMessageCount`: `SELECT COUNT(*) FROM messages WHERE channel_id == $channelId`. -/
def getMessageCount (st : Store) (cid : List Nat) : Nat :=
  (channelMessages st cid).length

/-- `hash IN (SELECT hash FROM parents WHERE channel_id == $channelId)`. -/
def parentsHas (st : Store) (cid h : List Nat) : Bool :=
  st.parents.any (fun p => p.channelId == cid && p.hash == h)

/-- `getLeafHashes`: channel messages whose hash is not in the channel's rows
of the parents table. -/
def getLeafHashes (st : Store) (cid : List Nat) : List (List Nat) :=
  ((channelMessages st cid).filter (fun r => !(parentsHas st cid r.hash))).map
    (fun r => r.hash)

/-- Stable insertion: place `x` before the first element it is `le` to. -/
def insertBy (le : α → α → Bool) (x : α) : List α → List α
  | [] => [x]
  | y :: l => if le x y then x :: y :: l else y :: insertBy le x l

/-- Stable insertion sort by a boolean comparison. -/
def sortBy (le : α → α → Bool) : List α → List α
  | [] => []
  | x :: l => insertBy le x (sortBy le l)

/-- `ORDER BY height ASC, hash ASC` as a boolean comparison on rows. -/
def crdtLeB (a b : MsgRow) : Bool :=
  decide (a.height < b.height) ||
    (decide (a.height = b.height) && !(blobCmp a.hash b.hash == .gt))

/-- `const MAX_VARIABLE_COUNT = 900`. -/
def MAX_VARIABLE_COUNT : Nat := 900

/-- Runner of the chunking loop. Each iteration consumes at least one element
(the cap is positive), so any fuel bounding the input length makes the
recursion structural without changing the value (see `chunks900_cons`). -/
def chunksGo : Nat → List (List Nat) → List (List (List Nat))
  | _, [] => []
  | 0, _ :: _ => []
  | fuel + 1, x :: l =>
    ((x :: l).take MAX_VARIABLE_COUNT) :: chunksGo fuel ((x :: l).drop MAX_VARIABLE_COUNT)

/-- The chunking loop of `getMessages`: `hashes.slice(offset, offset + 900)`
for `offset = 0, 900, ...`. -/
def chunks900 (l : List (List Nat)) : List (List (List Nat)) :=
  chunksGo l.length l

/-- One chunked query of `getMessages`: `SELECT blob FROM messages WHERE
channel_id == ? AND hash IN (chunk) ORDER BY hash` — one row per matching
message row, ordered by hash. -/
def chunkRows (st : Store) (cid : List Nat) (chunk : List (List Nat)) : List MsgRow :=
  sortBy (fun a b => !(blobCmp a.hash b.hash == .gt))
    (st.messages.filter (fun r => r.channelId == cid && chunk.contains r.hash))

/-- The re-assembly loop of `getMessages`:
`for (const [i, target] of order.entries()) result[target] = rows[i].blob` —
dereferencing a missing `rows[i]` throws, modelled as `none`. -/
def assignLoop (rows : List MsgRow) : Nat → List Nat → List (Option (List Nat)) →
    Option (List (Option (List Nat)))
  | _, [], acc => some acc
  | i, target :: rest, acc =>
    match rows.get? i with
    | none => none
    | some r => assignLoop rows (i + 1) rest (acc.set target (some r.blob))

/-- `getMessages`: sort the input index/hash pairs by hash (stable), fetch
rows chunk by chunk (each chunk ordered by hash), concatenate, and write
`rows[i]` into `result[order[i]]`. -/
def getMessages (st : Store) (cid : List Nat) (hashes : List (List Nat)) :
    Option (List (Option (List Nat))) :=
  let order := (sortBy (fun a b => !(blobCmp a.2 b.2 == .gt)) hashes.enum).map
    (fun p => p.1)
  let rows := ((chunks900 hashes).map (chunkRows st cid)).flatten
  assignLoop rows 0 order (List.replicate hashes.length none)

/-- The channel's rows in CRDT order (`ORDER BY height ASC, hash ASC`). -/
def crdtSorted (st : Store) (cid : List Nat) : List MsgRow :=
  sortBy crdtLeB (channelMessages st cid)

/-- `getHashesAtOffset`: `ORDER BY height ASC, hash ASC LIMIT $limit OFFSET $offset`. -/
def getHashesAtOffset (st : Store) (cid : List Nat) (offset limit : Nat) :
    List (List Nat) :=
  (((crdtSorted st cid).drop offset).take limit).map (fun r => r.hash)

/-- `getReverseHashesAtOffset`: `ORDER BY height DESC, hash DESC`, i.e. the
reverse of the ascending order (sort keys are distinct). -/
def getReverseHashesAtOffset (st : Store) (cid : List Nat) (offset limit : Nat) :
    List (List Nat) :=
  ((((crdtSorted st cid).reverse).drop offset).take limit).map (fun r => r.hash)

/-- A query cursor: `{hash}` or `{height}`. -/
inductive Cursor where
  | byHash (hash : List Nat)
  | byHeight (height : Nat)
  deriving DecidableEq, Repr

/-- An abbreviated message: hash plus decoded parent hashes. -/
structure AbbrevMsg where
  hash : List Nat
  parents : List (List Nat)
  deriving DecidableEq, Repr

/-- The result record of `query`. -/
structure QueryResult where
  abbreviatedMessages : List AbbrevMsg
  backwardHash : Option (List Nat)
  forwardHash : Option (List Nat)
  deriving DecidableEq, Repr

/-- Backward hash-anchor condition: `messages.height < original.height OR
(messages.height == original.height AND messages.hash < original.hash)`. -/
def anchorLtB (m o : MsgRow) : Bool :=
  decide (m.height < o.height) ||
    (decide (m.height = o.height) && (blobCmp m.hash o.hash == .lt))

/-- Forward hash-anchor condition: `messages.height > original.height OR
(messages.height == original.height AND messages.hash >= original.hash)`. -/
def anchorGeB (m o : MsgRow) : Bool :=
  decide (o.height < m.height) ||
    (decide (m.height = o.height) && !(blobCmp m.hash o.hash == .lt))

/-- The self-join `original.hash == $hash AND original.channel_id ==
messages.channel_id` resolving the anchor row (hash is the primary key). -/
def findOriginal (st : Store) (cid a : List Nat) : Option MsgRow :=
  st.messages.find? (fun o => o.hash == a && o.channelId == cid)

/-- The `LIMIT limit + 1` row fetch of `query`, before the in-memory reverse.
Descending `ORDER BY` is the reverse of the ascending one. -/
def fetchedRows (st : Store) (cid : List Nat) (cursor : Cursor) (isBackward : Bool)
    (n : Nat) : List MsgRow :=
  match cursor with
  | .byHash a =>
    match findOriginal st cid a with
    | none => []
    | some o =>
      if isBackward then
        ((sortBy crdtLeB ((channelMessages st cid).filter
          (fun m => anchorLtB m o))).reverse).take n
      else
        (sortBy crdtLeB ((channelMessages st cid).filter
          (fun m => anchorGeB m o))).take n
  | .byHeight hgt =>
    (sortBy crdtLeB ((channelMessages st cid).filter
      (fun m => decide (hgt ≤ m.height)))).take n

/-- Abbreviate a row: `{ hash: row.hash, parents: decodeHashList(row.parent_hashes) }`. -/
def toAbbrev (r : MsgRow) : AbbrevMsg :=
  { hash := r.hash, parents := decodeHashList r.parentHashes }

/-- `query(channelId, cursor, isBackward, limit)`. The limit is clamped with
`Math.max(0, limit)`; backward-by-height throws before querying; backward rows
are reversed into ascending order before being packaged. -/
def query (st : Store) (cid : List Nat) (cursor : Cursor) (isBackward : Bool)
    (limit0 : Int) : Except String QueryResult :=
  let limit : Nat := limit0.toNat
  match cursor, isBackward with
  | .byHeight _, true => .error "Backwards query by height is not supported"
  | _, _ =>
    let fetched := fetchedRows st cid cursor isBackward (limit + 1)
    let rows := if isBackward then fetched.reverse else fetched
    let msgs := rows.map toAbbrev
    if isBackward then
      let fHash : Option (List Nat) :=
        match cursor with
        | .byHash a => some a
        | .byHeight _ => none
      if limit < rows.length then
        .ok { abbreviatedMessages := msgs.drop 1,
              backwardHash := (rows.head?).map (fun r => r.hash),
              forwardHash := fHash }
      else
        .ok { abbreviatedMessages := msgs, backwardHash := none, forwardHash := fHash }
    else
      let bHash := (rows.head?).map (fun r => r.hash)
      if limit < rows.length then
        .ok { abbreviatedMessages := msgs.dropLast,
              backwardHash := bHash,
              forwardHash := (rows.getLast?).map (fun r => r.hash) }
      else
        .ok { abbreviatedMessages := msgs, backwardHash := bHash, forwardHash := none }

/-- `removeChannelMessages`: delete the channel's rows from both tables. -/
def removeChannelMessages (st : Store) (cid : List Nat) : Store :=
  { messages := st.messages.filter (fun r => !(r.channelId == cid)),
    parents := st.parents.filter (fun p => !(p.channelId == cid)) }

/-- Spec-side: the hash is referenced as a parent by some message stored in
the channel (via the decoded stored parent list). -/
def referencedInChannel (st : Store) (cid h : List Nat) : Bool :=
  st.messages.any (fun r => r.channelId == cid && (decodeHashList r.parentHashes).contains h)

/-- Spec-side: some message with this hash is stored in the channel. -/
def storedInChannel (st : Store) (cid h : List Nat) : Bool :=
  st.messages.any (fun r => r.channelId == cid && r.hash == h)

/-- Spec-side strict CRDT order: height ascending, ties broken by ascending
byte-wise hash comparison. -/
def specCrdtLt (a b : MsgRow) : Prop :=
  a.height < b.height ∨ (a.height = b.height ∧ blobCmp a.hash b.hash = .lt)

/-- The schema's `PRIMARY KEY(hash ASC)` on the messages table: all stored
message hashes are distinct. -/
def Store.MsgNodup (st : Store) : Prop :=
  (st.messages.map (fun r => r.hash)).Nodup

/-- The messages-table row written for a message whose encoding succeeded. -/
def rowOf (m : Message) : MsgRow :=
  { channelId := m.channelId, hash := m.hash, parentHashes := encBody m.parents,
    height := m.height, blob := m.data }

/-- The DAG of the repository's test suite: a(0) ← b(1), c(1) ← d(2), inserted
in the order a, c, b, d into channel `[5]` (hash bytes are the ASCII codes). -/
def exMsgs : List Message :=
  [ { channelId := [5], hash := [97], parents := [], height := 0, data := [0] },
    { channelId := [5], hash := [99], parents := [[97]], height := 1, data := [1] },
    { channelId := [5], hash := [98], parents := [[97]], height := 1, data := [2] },
    { channelId := [5], hash := [100], parents := [[98], [99]], height := 2, data := [3] } ]

/-- The store produced by running `exMsgs` (see `runAdds_exMsgs`). -/
def exStore : Store :=
  { messages :=
      [ { channelId := [5], hash := [97], parentHashes := [], height := 0, blob := [0] },
        { channelId := [5], hash := [99], parentHashes := [1, 97], height := 1, blob := [1] },
        { channelId := [5], hash := [98], parentHashes := [1, 97], height := 1, blob := [2] },
        { channelId := [5], hash := [100], parentHashes := [1, 98, 1, 99], height := 2,
          blob := [3] } ],
    parents :=
      [ { channelId := [5], hash := [97] },
        { channelId := [5], hash := [98] },
        { channelId := [5], hash := [99] } ] }

/-- The same four messages inserted in the order d, b, c, a. -/
def exMsgs2 : List Message :=
  [ { channelId := [5], hash := [100], parents := [[98], [99]], height := 2, data := [3] },
    { channelId := [5], hash := [98], parents := [[97]], height := 1, data := [2] },
    { channelId := [5], hash := [99], parents := [[97]], height := 1, data := [1] },
    { channelId := [5], hash := [97], parents := [], height := 0, data := [0] } ]

/-- The store produced by running `exMsgs2`. -/
def exStore2 : Store :=
  { messages :=
      [ { channelId := [5], hash := [100], parentHashes := [1, 98, 1, 99], height := 2,
          blob := [3] },
        { channelId := [5], hash := [98], parentHashes := [1, 97], height := 1, blob := [2] },
        { channelId := [5], hash := [99], parentHashes := [1, 97], height := 1, blob := [1] },
        { channelId := [5], hash := [97], parentHashes := [], height := 0, blob := [0] } ],
    parents :=
      [ { channelId := [5], hash := [98] },
        { channelId := [5], hash := [99] },
        { channelId := [5], hash := [97] } ] }

/-- A history in which hash `[1]` is referenced as a parent from two distinct
channels: channel `[0]` holds `[1]` and `[2]` (child of `[1]`), then a message
of channel `[7]` also names `[1]` as a parent. -/
def c4Msgs : List Message :=
  [ { channelId := [0], hash := [1], parents := [], height := 0, data := [10] },
    { channelId := [0], hash := [2], parents := [[1]], height := 1, data := [20] },
    { channelId := [7], hash := [3], parents := [[1]], height := 1, data := [30] } ]

/-- The store produced by running `c4Msgs`: the parents-table row for `[1]`
(hash is its primary key) now carries channel `[7]`. -/
def c4Store : Store :=
  { messages :=
      [ { channelId := [0], hash := [1], parentHashes := [], height := 0, blob := [10] },
        { channelId := [0], hash := [2], parentHashes := [1, 1], height := 1, blob := [20] },
        { channelId := [7], hash := [3], parentHashes := [1, 1], height := 1, blob := [30] } ],
    parents := [ { channelId := [7], hash := [1] } ] }

/-! ### Helper lemmas: codec, sorting, anchor resolution -/

theorem decodeGo_fuel :
    ∀ (n : Nat) (data : List Nat), data.length ≤ n →
      ∀ f1 f2, data.length ≤ f1 → data.length ≤ f2 → decodeGo f1 data = decodeGo f2 data := by
  intro n
  induction n with
  | zero =>
    intro data h f1 f2 _ _
    rw [List.length_eq_zero.mp (Nat.le_zero.mp h)]
    cases f1 <;> cases f2 <;> rfl
  | succ n ih =>
    intro data h f1 f2 h1 h2
    cases data with
    | nil => cases f1 <;> cases f2 <;> rfl
    | cons len rest =>
      simp only [List.length_cons] at h h1 h2
      cases f1 with
      | zero => omega
      | succ f1 =>
        cases f2 with
        | zero => omega
        | succ f2 =>
          rw [decodeGo, decodeGo]
          congr 1
          have hdl : (rest.drop len).length ≤ rest.length := by
            rw [List.length_drop]; omega
          exact ih (rest.drop len) (by omega) f1 f2 (by omega) (by omega)

/-- The one-step unfolding of the decode loop. -/
theorem decodeHashList_cons (len : Nat) (rest : List Nat) :
    decodeHashList (len :: rest) = rest.take len :: decodeHashList (rest.drop len) := by
  show decodeGo (rest.length + 1) (len :: rest) = _
  rw [decodeGo]
  congr 1
  exact decodeGo_fuel rest.length (rest.drop len) (by rw [List.length_drop]; omega)
    rest.length (rest.drop len).length (by rw [List.length_drop]; omega) le_rfl

theorem decode_encBody (xs : List (List Nat)) : decodeHashList (encBody xs) = xs := by
  induction xs with
  | nil => rfl
  | cons e rest ih =>
    show decodeHashList (e.length :: (e ++ encBody rest)) = e :: rest
    rw [decodeHashList_cons, List.take_left, List.drop_left, ih]

theorem insertBy_perm (le : α → α → Bool) (x : α) (l : List α) :
    (insertBy le x l).Perm (x :: l) := by
  induction l with
  | nil => simp [insertBy]
  | cons y t ih =>
    rw [insertBy]
    split
    · exact List.Perm.refl _
    · exact (ih.cons y).trans (List.Perm.swap x y t)

theorem sortBy_perm (le : α → α → Bool) (l : List α) : (sortBy le l).Perm l := by
  induction l with
  | nil => exact List.Perm.refl _
  | cons x t ih =>
    rw [sortBy]
    exact (insertBy_perm le x (sortBy le t)).trans (ih.cons x)

theorem sortBy_length (le : α → α → Bool) (l : List α) :
    (sortBy le l).length = l.length :=
  (sortBy_perm le l).length_eq

theorem mem_sortBy {le : α → α → Bool} {l : List α} {a : α} :
    a ∈ sortBy le l ↔ a ∈ l :=
  (sortBy_perm le l).mem_iff

theorem any_filter {α} (p q : α → Bool) (l : List α) :
    (l.filter p).any q = l.any (fun a => p a && q a) := by
  induction l with
  | nil => rfl
  | cons x t ih =>
    by_cases h : p x <;> simp [List.filter_cons, h, ih]

theorem any_congr {α} {p q : α → Bool} (l : List α) (h : ∀ a ∈ l, p a = q a) :
    l.any p = l.any q := by
  induction l with
  | nil => rfl
  | cons x t ih =>
    simp only [List.any_cons]
    rw [h x (List.mem_cons_self x t), ih fun a ha => h a (List.mem_cons_of_mem x ha)]

theorem findOriginal_eq_none (st : Store) (cid a : List Nat)
    (h : ∀ r ∈ st.messages, ¬(r.hash = a ∧ r.channelId = cid)) :
    findOriginal st cid a = none := by
  rw [findOriginal, List.find?_eq_none]
  intro r hr
  simp only [Bool.and_eq_true, beq_iff_eq, not_and]
  intro h1 h2
  exact h r hr ⟨h1, h2⟩

theorem find?_hash_eq_some (l : List MsgRow) (cid a : List Nat) (o : MsgRow)
    (hnd : (l.map (fun r => r.hash)).Nodup) (ho : o ∈ l) (ha : o.hash = a)
    (hc : o.channelId = cid) :
    l.find? (fun r => r.hash == a && r.channelId == cid) = some o := by
  induction l with
  | nil => cases ho
  | cons r t ih =>
    rw [List.map_cons, List.nodup_cons] at hnd
    rcases List.mem_cons.mp ho with rfl | hmem
    · rw [List.find?_cons_of_pos]
      simp [ha, hc]
    · have hne : (r.hash == a && r.channelId == cid) = false := by
        rw [Bool.eq_false_iff]
        simp only [ne_eq, Bool.and_eq_true, beq_iff_eq, not_and]
        intro h1 _
        apply hnd.1
        have hmm : o.hash ∈ List.map (fun r => r.hash) t :=
          List.mem_map_of_mem (fun r => r.hash) hmem
        rw [h1, ← ha]
        exact hmm
      rw [List.find?_cons, hne]
      exact ih hnd.2 hmem

theorem findOriginal_eq_some (st : Store) (cid a : List Nat) (o : MsgRow)
    (hnd : st.MsgNodup) (ho : o ∈ st.messages) (ha : o.hash = a)
    (hc : o.channelId = cid) :
    findOriginal st cid a = some o :=
  find?_hash_eq_some st.messages cid a o hnd ho ha hc

/-! ### C7: codec round-trip -/

/-- C7: for every sequence of byte-string hashes each at most 255 bytes long
(empty elements and the empty sequence included), encoding succeeds and
decoding the encoded buffer yields the input sequence element for element. -/
theorem c7_codec_roundtrip (xs : List (List Nat)) (h : ∀ e ∈ xs, e.length ≤ 255) :
    encodeHashList xs = .ok (encBody xs) ∧ decodeHashList (encBody xs) = xs := by
  have hfalse : xs.any (fun e => decide (255 < e.length)) = false := by
    rw [List.any_eq_false]
    intro e he
    simp only [decide_eq_true_eq, not_lt]
    exact h e he
  exact ⟨by simp [encodeHashList, hfalse], decode_encBody xs⟩

theorem c7_codec_roundtrip_witness :
    (∀ e ∈ [[1, 2], [3], ([] : List Nat)], e.length ≤ 255) ∧
      encodeHashList [[1, 2], [3], []] = .ok (encBody [[1, 2], [3], []]) ∧
      decodeHashList (encBody [[1, 2], [3], []]) = [[1, 2], [3], []] :=
  ⟨by decide, c7_codec_roundtrip [[1, 2], [3], []] (by decide)⟩

/-! ### C8: oversized parent hash aborts addMessage before any write -/

/-- C8: a message with a parent hash longer than 255 bytes makes addMessage
fail with the encoding error; no successor state is produced, so the message
and parent-edge state after the failed call is the state before it. -/
theorem c8_long_parent_aborts (st : Store) (m : Message)
    (h : ∃ p ∈ m.parents, 255 < p.length) :
    addMessage st m = .error "Invalid hash" := by
  have htrue : m.parents.any (fun e => decide (255 < e.length)) = true := by
    rw [List.any_eq_true]
    obtain ⟨p, hp, hlen⟩ := h
    exact ⟨p, hp, by simpa using hlen⟩
  simp [addMessage, encodeHashList, htrue]

theorem c8_long_parent_aborts_witness :
    (∃ p ∈ [List.replicate 256 0], 255 < p.length) ∧
      addMessage emptyStore
          { channelId := [0], hash := [1], parents := [List.replicate 256 0],
            height := 0, data := [] } =
        .error "Invalid hash" :=
  ⟨⟨List.replicate 256 0, List.mem_singleton.mpr rfl, by rw [List.length_replicate]; omega⟩,
    c8_long_parent_aborts _ _
      ⟨List.replicate 256 0, List.mem_singleton.mpr rfl, by rw [List.length_replicate]; omega⟩⟩

/-! ### C3: query anchored at a hash absent from the channel -/

/-- C3 (amended): a query anchored at a hash with no stored message in the
channel returns an empty page with backwardHash null; forwardHash is null in
the forward direction, but in the backward direction it is the anchor hash
itself (the code sets `forwardHash = cursor.hash` unconditionally). -/
theorem c3_missing_anchor (st : Store) (cid a : List Nat) (limit0 : Int)
    (h : ∀ r ∈ st.messages, ¬(r.hash = a ∧ r.channelId = cid)) :
    query st cid (.byHash a) false limit0 =
        .ok { abbreviatedMessages := [], backwardHash := none, forwardHash := none } ∧
      query st cid (.byHash a) true limit0 =
        .ok { abbreviatedMessages := [], backwardHash := none, forwardHash := some a } := by
  have hfind := findOriginal_eq_none st cid a h
  constructor <;> simp [query, fetchedRows, hfind]

/-- C3 counterexample: in the backward direction the claim fails — anchoring
at the absent hash `[120]` returns forwardHash equal to the anchor, which is
not null. -/
theorem c3_counterexample :
    query exStore [5] (.byHash [120]) true 2 =
        .ok { abbreviatedMessages := [], backwardHash := none, forwardHash := some [120] } ∧
      (some [120] : Option (List Nat)) ≠ none :=
  ⟨rfl, by decide⟩

theorem c3_missing_anchor_witness :
    (∀ r ∈ exStore.messages, ¬(r.hash = [120] ∧ r.channelId = [5])) ∧
      query exStore [5] (.byHash [120]) false 7 =
        .ok { abbreviatedMessages := [], backwardHash := none, forwardHash := none } :=
  ⟨by decide, (c3_missing_anchor exStore [5] [120] 7 (by decide)).1⟩

/-! ### C5: removeChannelMessages frame property -/

/-- C5: removing channel A's rows empties A's message count and leaf set while
a distinct channel B keeps exactly its stored message rows, its message count
and its leaf set. -/
theorem c5_remove_frame (st : Store) (A B : List Nat) (hAB : A ≠ B) :
    getMessageCount (removeChannelMessages st A) A = 0 ∧
      getLeafHashes (removeChannelMessages st A) A = [] ∧
      channelMessages (removeChannelMessages st A) B = channelMessages st B ∧
      getMessageCount (removeChannelMessages st A) B = getMessageCount st B ∧
      getLeafHashes (removeChannelMessages st A) B = getLeafHashes st B := by
  have hA : channelMessages (removeChannelMessages st A) A = [] := by
    rw [channelMessages, removeChannelMessages]
    simp only [List.filter_filter]
    rw [List.filter_eq_nil_iff]
    intro r _
    simp
  have hB : channelMessages (removeChannelMessages st A) B = channelMessages st B := by
    rw [channelMessages, removeChannelMessages, channelMessages]
    simp only [List.filter_filter]
    apply List.filter_congr
    intro r _
    by_cases hrB : r.channelId = B
    · have : (r.channelId == A) = false := by
        rw [beq_eq_false_iff_ne]
        rw [hrB]
        exact fun hc => hAB hc.symm
      simp [this]
    · have : (r.channelId == B) = false := beq_eq_false_iff_ne.mpr hrB
      simp [this]
  have hPar : ∀ hsh, parentsHas (removeChannelMessages st A) B hsh = parentsHas st B hsh := by
    intro hsh
    rw [parentsHas, parentsHas, removeChannelMessages]
    rw [any_filter]
    apply any_congr
    intro p _
    by_cases hpB : p.channelId = B
    · have : (p.channelId == A) = false := by
        rw [beq_eq_false_iff_ne, hpB]
        exact fun hc => hAB hc.symm
      simp [this]
    · have : (p.channelId == B) = false := beq_eq_false_iff_ne.mpr hpB
      simp [this]
  refine ⟨?_, ?_, hB, ?_, ?_⟩
  · rw [getMessageCount, hA]
    rfl
  · rw [getLeafHashes, hA]
    rfl
  · rw [getMessageCount, getMessageCount, hB]
  · rw [getLeafHashes, getLeafHashes, hB]
    congr 1
    apply List.filter_congr
    intro r _
    rw [hPar]

theorem c5_remove_frame_witness :
    ([0] : List Nat) ≠ [7] ∧
      getMessageCount (removeChannelMessages c4Store [0]) [0] = 0 ∧
      getLeafHashes (removeChannelMessages c4Store [0]) [0] = [] ∧
      channelMessages (removeChannelMessages c4Store [0]) [7] = channelMessages c4Store [7] ∧
      getMessageCount (removeChannelMessages c4Store [0]) [7] = getMessageCount c4Store [7] ∧
      getLeafHashes (removeChannelMessages c4Store [0]) [7] = getLeafHashes c4Store [7] :=
  ⟨by decide, c5_remove_frame c4Store [0] [7] (by decide)⟩

/-! ### C1: getMessages at the failing duplicate input -/

/-- C1 (evaluation at the failing input): getMessages succeeds on the single
stored hash `[98]`, but on the duplicated list `[[98], [98]]` the chunked
`IN` query returns only one row for the distinct stored hash, so the
re-assembly loop dereferences the missing `rows[1]` — the call fails instead
of returning the payload twice. -/
theorem c1_duplicate_hashes_fail :
    getMessages exStore [5] [[98]] = some [some [2]] ∧
      getMessages exStore [5] [[98], [98]] = none :=
  ⟨rfl, rfl⟩

/-! ### C10: a missing hash makes getMessages fail -/

theorem assignLoop_eq_none (rows : List MsgRow) :
    ∀ (ts : List Nat) (i : Nat) (acc : List (Option (List Nat))),
      rows.length - i < ts.length → assignLoop rows i ts acc = none := by
  intro ts
  induction ts with
  | nil =>
    intro i acc h
    simp only [List.length_nil] at h
    omega
  | cons t rest ih =>
    intro i acc h
    rw [assignLoop]
    cases hi : rows.get? i with
    | none => rfl
    | some r =>
      have hlen : i < rows.length := by
        by_contra hge
        rw [List.get?_eq_none.mpr (Nat.le_of_not_lt hge)] at hi
        cases hi
      simp only [List.length_cons] at h
      exact ih (i + 1) (acc.set t (some r.blob)) (by omega)

theorem chunksGo_fuel :
    ∀ (n : Nat) (l : List (List Nat)), l.length ≤ n →
      ∀ f1 f2, l.length ≤ f1 → l.length ≤ f2 → chunksGo f1 l = chunksGo f2 l := by
  intro n
  induction n with
  | zero =>
    intro l h f1 f2 _ _
    rw [List.length_eq_zero.mp (Nat.le_zero.mp h)]
    cases f1 <;> cases f2 <;> rfl
  | succ n ih =>
    intro l h f1 f2 h1 h2
    cases l with
    | nil => cases f1 <;> cases f2 <;> rfl
    | cons x t =>
      simp only [List.length_cons] at h h1 h2
      cases f1 with
      | zero => omega
      | succ f1 =>
        cases f2 with
        | zero => omega
        | succ f2 =>
          rw [chunksGo, chunksGo]
          congr 1
          have hdl : ((x :: t).drop MAX_VARIABLE_COUNT).length ≤ t.length := by
            rw [List.length_drop, List.length_cons, MAX_VARIABLE_COUNT]
            omega
          exact ih _ (by omega) f1 f2 (by omega) (by omega)

/-- The one-step unfolding of the chunking loop. -/
theorem chunks900_cons (x : List Nat) (l : List (List Nat)) :
    chunks900 (x :: l) =
      ((x :: l).take MAX_VARIABLE_COUNT) :: chunks900 ((x :: l).drop MAX_VARIABLE_COUNT) := by
  show chunksGo (l.length + 1) (x :: l) = _
  rw [chunksGo]
  congr 1
  refine chunksGo_fuel l.length _ ?_ l.length _ ?_ le_rfl
  · rw [List.length_drop, List.length_cons, MAX_VARIABLE_COUNT]; omega
  · rw [List.length_drop, List.length_cons, MAX_VARIABLE_COUNT]; omega

theorem chunks900_flatten_aux :
    ∀ (n : Nat) (l : List (List Nat)), l.length ≤ n → (chunks900 l).flatten = l := by
  intro n
  induction n with
  | zero =>
    intro l h
    rw [List.length_eq_zero.mp (Nat.le_zero.mp h)]
    rfl
  | succ n ih =>
    intro l h
    cases l with
    | nil => rfl
    | cons x t =>
      rw [chunks900_cons, List.flatten_cons]
      rw [ih ((x :: t).drop MAX_VARIABLE_COUNT) ?_]
      · exact List.take_append_drop _ _
      · simp only [List.length_drop, List.length_cons, MAX_VARIABLE_COUNT]
        simp only [List.length_cons] at h
        omega

theorem chunks900_flatten (l : List (List Nat)) : (chunks900 l).flatten = l :=
  chunks900_flatten_aux l.length l le_rfl

theorem sum_lt_sum_of_mem {α} (L : List α) (f g : α → Nat)
    (hle : ∀ c ∈ L, f c ≤ g c) (hlt : ∃ c ∈ L, f c < g c) :
    (L.map f).sum < (L.map g).sum := by
  induction L with
  | nil => obtain ⟨c, hc, _⟩ := hlt; cases hc
  | cons x t ih =>
    simp only [List.map_cons, List.sum_cons]
    obtain ⟨c, hc, hclt⟩ := hlt
    rcases List.mem_cons.mp hc with rfl | hct
    · have hsum : (t.map f).sum ≤ (t.map g).sum :=
        List.sum_le_sum fun a ha => hle a (List.mem_cons_of_mem c ha)
      omega
    · have hx : f x ≤ g x := hle x (List.mem_cons_self x t)
      have := ih (fun d hd => hle d (List.mem_cons_of_mem x hd)) ⟨c, hct, hclt⟩
      omega

theorem length_filter_lt {α} (p : α → Bool) (l : List α) (x : α) (hx : x ∈ l)
    (hpx : p x = false) : (l.filter p).length < l.length := by
  induction l with
  | nil => cases hx
  | cons y t ih =>
    rcases List.mem_cons.mp hx with rfl | hxt
    · rw [List.filter_cons, hpx]
      simp only [List.length_cons]
      exact Nat.lt_succ_of_le (List.length_filter_le p t)
    · rw [List.filter_cons]
      cases hpy : p y
      · simp only [List.length_cons]
        exact Nat.lt_succ_of_lt (ih hxt)
      · simp only [List.length_cons]
        exact Nat.succ_lt_succ (ih hxt)

theorem chunk_count_le (st : Store) (cid : List Nat) (c : List (List Nat))
    (hnd : st.MsgNodup) :
    (st.messages.filter (fun r => r.channelId == cid && c.contains r.hash)).length ≤
      (c.filter (fun h => storedInChannel st cid h)).length := by
  have hnodup :
      ((st.messages.filter (fun r => r.channelId == cid && c.contains r.hash)).map
        (fun r => r.hash)).Nodup :=
    List.Nodup.sublist ((List.filter_sublist st.messages).map (fun r => r.hash)) hnd
  have hsub :
      ((st.messages.filter (fun r => r.channelId == cid && c.contains r.hash)).map
        (fun r => r.hash)) ⊆ c.filter (fun h => storedInChannel st cid h) := by
    intro x hx
    obtain ⟨r, hr, rfl⟩ := List.mem_map.mp hx
    obtain ⟨hrmem, hpred⟩ := List.mem_filter.mp hr
    simp only [Bool.and_eq_true, beq_iff_eq] at hpred
    rw [List.mem_filter]
    refine ⟨List.elem_iff.mp hpred.2, ?_⟩
    rw [storedInChannel, List.any_eq_true]
    exact ⟨r, hrmem, by simp [hpred.1]⟩
  have hle := (hnodup.subperm hsub).length_le
  rwa [List.length_map] at hle

/-- C10: if even one requested hash has no stored message in the channel, the
re-assembly loop of getMessages dereferences a missing row and the whole call
fails instead of returning a sentinel or omitting the entry. -/
theorem c10_missing_hash_fails (st : Store) (cid : List Nat) (hashes : List (List Nat))
    (hnd : st.MsgNodup)
    (h0 : ∃ h ∈ hashes, storedInChannel st cid h = false) :
    getMessages st cid hashes = none := by
  show assignLoop (((chunks900 hashes).map (chunkRows st cid)).flatten) 0
    ((sortBy (fun a b => !(blobCmp a.2 b.2 == .gt)) hashes.enum).map (fun p => p.1))
    (List.replicate hashes.length none) = none
  apply assignLoop_eq_none
  have horder : ((sortBy (fun a b => !(blobCmp a.2 b.2 == .gt)) hashes.enum).map
      (fun p => p.1)).length = hashes.length := by
    rw [List.length_map, sortBy_length, List.enum_length]
  rw [horder, Nat.sub_zero]
  have hrows : (((chunks900 hashes).map (chunkRows st cid)).flatten).length =
      ((chunks900 hashes).map (fun c => (chunkRows st cid c).length)).sum := by
    rw [List.length_flatten, List.map_map]
    rfl
  rw [hrows]
  have hlen : hashes.length = ((chunks900 hashes).map (fun c => c.length)).sum := by
    conv_lhs => rw [← chunks900_flatten hashes]
    rw [List.length_flatten]
  rw [hlen]
  apply sum_lt_sum_of_mem
  · intro c _
    calc (chunkRows st cid c).length
        = (st.messages.filter (fun r => r.channelId == cid && c.contains r.hash)).length :=
          sortBy_length _ _
      _ ≤ (c.filter (fun h => storedInChannel st cid h)).length := chunk_count_le st cid c hnd
      _ ≤ c.length := List.length_filter_le _ _
  · obtain ⟨h, hmem, hstored⟩ := h0
    have hmem2 : h ∈ (chunks900 hashes).flatten := by
      rw [chunks900_flatten]; exact hmem
    obtain ⟨c, hc, hhc⟩ := List.mem_flatten.mp hmem2
    refine ⟨c, hc, ?_⟩
    calc (chunkRows st cid c).length
        = (st.messages.filter (fun r => r.channelId == cid && c.contains r.hash)).length :=
          sortBy_length _ _
      _ ≤ (c.filter (fun h => storedInChannel st cid h)).length := chunk_count_le st cid c hnd
      _ < c.length := length_filter_lt _ c h hhc hstored

theorem c10_missing_hash_fails_witness :
    exStore.MsgNodup ∧ (∃ h ∈ [[98], [77]], storedInChannel exStore [5] h = false) ∧
      getMessages exStore [5] [[98], [77]] = none :=
  ⟨show (exStore.messages.map (fun r => r.hash)).Nodup from by decide,
    ⟨[77], by decide, by decide⟩,
    c10_missing_hash_fails exStore [5] [[98], [77]]
      (show (exStore.messages.map (fun r => r.hash)).Nodup from by decide)
      ⟨[77], by decide, by decide⟩⟩

/-! ### C6: forward queries -/

theorem head?_take_succ {α} (l : List α) (n : Nat) : (l.take (n + 1)).head? = l.head? := by
  cases l <;> rfl

theorem take_succ_package (S : List MsgRow) (n : Nat) :
    (if n < (S.take (n + 1)).length
     then QueryResult.mk (((S.take (n + 1)).map toAbbrev).dropLast)
            (((S.take (n + 1)).head?).map (fun r => r.hash))
            (((S.take (n + 1)).getLast?).map (fun r => r.hash))
     else QueryResult.mk ((S.take (n + 1)).map toAbbrev)
            (((S.take (n + 1)).head?).map (fun r => r.hash)) none) =
      QueryResult.mk ((S.take n).map toAbbrev) ((S.head?).map (fun r => r.hash))
        (if n < S.length then (S[n]?).map (fun r => r.hash) else none) := by
  by_cases h : n < S.length
  · obtain ⟨x, hx⟩ : ∃ x, S[n]? = some x := ⟨S[n], List.getElem?_eq_getElem h⟩
    have htake : S.take (n + 1) = S.take n ++ [x] := by
      rw [List.take_succ, hx]
      rfl
    have hlen : (S.take (n + 1)).length = n + 1 := by
      rw [List.length_take]
      omega
    rw [if_pos (show n < (S.take (n + 1)).length by rw [hlen]; omega), if_pos h, hx]
    congr 1
    · rw [htake, List.map_append]
      exact List.dropLast_concat
    · rw [head?_take_succ]
    · rw [htake, List.getLast?_concat]
  · have hge : S.length ≤ n := Nat.le_of_not_lt h
    have htake1 : S.take (n + 1) = S := List.take_of_length_le (by omega)
    have htake0 : S.take n = S := List.take_of_length_le hge
    rw [htake1, htake0, if_neg h, if_neg h]

theorem query_forward_eq (st : Store) (cid : List Nat) (cursor : Cursor) (limit0 : Int)
    (S : List MsgRow)
    (hS : fetchedRows st cid cursor false (limit0.toNat + 1) = S.take (limit0.toNat + 1)) :
    query st cid cursor false limit0 =
      .ok { abbreviatedMessages := (S.take limit0.toNat).map toAbbrev,
            backwardHash := (S.head?).map (fun r => r.hash),
            forwardHash := if limit0.toNat < S.length
                           then (S[limit0.toNat]?).map (fun r => r.hash) else none } := by
  have key : ∀ rows : List MsgRow, rows = S.take (limit0.toNat + 1) →
      (if limit0.toNat < rows.length
       then (Except.ok
         ({ abbreviatedMessages := (rows.map toAbbrev).dropLast,
            backwardHash := (rows.head?).map (fun r => r.hash),
            forwardHash := (rows.getLast?).map (fun r => r.hash) } : QueryResult)
         : Except String QueryResult)
       else Except.ok
         ({ abbreviatedMessages := rows.map toAbbrev,
            backwardHash := (rows.head?).map (fun r => r.hash),
            forwardHash := none } : QueryResult)) =
      .ok { abbreviatedMessages := (S.take limit0.toNat).map toAbbrev,
            backwardHash := (S.head?).map (fun r => r.hash),
            forwardHash := if limit0.toNat < S.length
                           then (S[limit0.toNat]?).map (fun r => r.hash) else none } := by
    intro rows hrows
    subst hrows
    rw [← apply_ite Except.ok]
    exact congrArg Except.ok (take_succ_package S limit0.toNat)
  cases cursor with
  | byHash a => exact key (fetchedRows st cid (.byHash a) false (limit0.toNat + 1)) hS
  | byHeight hgt => exact key (fetchedRows st cid (.byHeight hgt) false (limit0.toNat + 1)) hS

/-- C6: a forward query (the limit clamped to a non-negative count) pages the
ascending (height, hash) order of the rows matching the anchor condition —
`height >= anchorHeight` for a height anchor, `height > anchorHeight OR
(height == anchorHeight AND hash >= anchorHash)` for a resolved hash anchor:
the page is the first `limit` matching rows, backwardHash is the hash of the
first fetched row (null when none was fetched) and forwardHash is the hash of
the dropped `limit+1`-st matching row when more than `limit` rows match, and
null otherwise. -/
theorem c6_forward_query (st : Store) (cid : List Nat) (limit0 : Int) :
    (∀ hgt : Nat,
      query st cid (.byHeight hgt) false limit0 =
        .ok { abbreviatedMessages :=
                ((sortBy crdtLeB ((channelMessages st cid).filter
                  (fun m => decide (hgt ≤ m.height)))).take limit0.toNat).map toAbbrev,
              backwardHash :=
                ((sortBy crdtLeB ((channelMessages st cid).filter
                  (fun m => decide (hgt ≤ m.height)))).head?).map (fun r => r.hash),
              forwardHash :=
                if limit0.toNat < (sortBy crdtLeB ((channelMessages st cid).filter
                    (fun m => decide (hgt ≤ m.height)))).length
                then ((sortBy crdtLeB ((channelMessages st cid).filter
                  (fun m => decide (hgt ≤ m.height))))[limit0.toNat]?).map (fun r => r.hash)
                else none }) ∧
    (∀ (a : List Nat) (o : MsgRow), st.MsgNodup → o ∈ st.messages → o.hash = a →
      o.channelId = cid →
      query st cid (.byHash a) false limit0 =
        .ok { abbreviatedMessages :=
                ((sortBy crdtLeB ((channelMessages st cid).filter
                  (fun m => anchorGeB m o))).take limit0.toNat).map toAbbrev,
              backwardHash :=
                ((sortBy crdtLeB ((channelMessages st cid).filter
                  (fun m => anchorGeB m o))).head?).map (fun r => r.hash),
              forwardHash :=
                if limit0.toNat < (sortBy crdtLeB ((channelMessages st cid).filter
                    (fun m => anchorGeB m o))).length
                then ((sortBy crdtLeB ((channelMessages st cid).filter
                  (fun m => anchorGeB m o)))[limit0.toNat]?).map (fun r => r.hash)
                else none }) := by
  constructor
  · intro hgt
    exact query_forward_eq st cid (.byHeight hgt) limit0
      (sortBy crdtLeB ((channelMessages st cid).filter (fun m => decide (hgt ≤ m.height)))) rfl
  · intro a o hnd ho ha hc
    have hfind := findOriginal_eq_some st cid a o hnd ho ha hc
    apply query_forward_eq st cid (.byHash a) limit0
      (sortBy crdtLeB ((channelMessages st cid).filter (fun m => anchorGeB m o)))
    show (match findOriginal st cid a with
      | none => []
      | some o1 =>
        (sortBy crdtLeB ((channelMessages st cid).filter
          (fun m => anchorGeB m o1))).take (limit0.toNat + 1)) = _
    rw [hfind]

theorem c6_forward_query_witness :
    query exStore [5] (.byHash [98]) false 2 =
      .ok { abbreviatedMessages := [{ hash := [98], parents := [[97]] },
                                    { hash := [99], parents := [[97]] }],
            backwardHash := some [98], forwardHash := some [100] } := by
  have h := (c6_forward_query exStore [5] 2).2 [98]
    { channelId := [5], hash := [98], parentHashes := [1, 97], height := 1, blob := [2] }
    (show (exStore.messages.map (fun r => r.hash)).Nodup from by decide)
    (by decide) rfl rfl
  exact h.trans (by rfl)

/-! ### C2: backward query with more rows than the limit before the anchor -/

/-- C2 (amended): for a backward query whose resolved anchor has more than
`limit` preceding rows in the (height, hash) order, the page is the `limit`
rows immediately preceding the anchor in ascending order (the extra earliest
fetched row is dropped), forwardHash is the anchor hash, and backwardHash is
the hash of the dropped row itself — the row at position `length - (limit+1)`
of the ascending preceding order — not of the earliest row kept in the page. -/
theorem c2_backward_query (st : Store) (cid a : List Nat) (limit0 : Int) (o : MsgRow)
    (B : List MsgRow)
    (hnd : st.MsgNodup) (ho : o ∈ st.messages) (ha : o.hash = a) (hc : o.channelId = cid)
    (hB : B = sortBy crdtLeB ((channelMessages st cid).filter (fun m => anchorLtB m o)))
    (hmore : limit0.toNat < B.length) :
    query st cid (.byHash a) true limit0 =
      .ok { abbreviatedMessages := (B.drop (B.length - limit0.toNat)).map toAbbrev,
            backwardHash := (B[B.length - (limit0.toNat + 1)]?).map (fun r => r.hash),
            forwardHash := some a } := by
  have hfetched : fetchedRows st cid (.byHash a) true (limit0.toNat + 1)
      = (B.reverse).take (limit0.toNat + 1) := by
    show (match findOriginal st cid a with
      | none => []
      | some o1 =>
        ((sortBy crdtLeB ((channelMessages st cid).filter
          (fun m => anchorLtB m o1))).reverse).take (limit0.toNat + 1)) = _
    rw [findOriginal_eq_some st cid a o hnd ho ha hc, hB]
  have hrows : (fetchedRows st cid (.byHash a) true (limit0.toNat + 1)).reverse
      = B.drop (B.length - (limit0.toNat + 1)) := by
    rw [hfetched, List.take_reverse, List.reverse_reverse]
  have hlen : (B.drop (B.length - (limit0.toNat + 1))).length = limit0.toNat + 1 := by
    rw [List.length_drop]
    omega
  show (if limit0.toNat <
      ((fetchedRows st cid (.byHash a) true (limit0.toNat + 1)).reverse).length
    then (Except.ok
      ({ abbreviatedMessages :=
           (((fetchedRows st cid (.byHash a) true (limit0.toNat + 1)).reverse).map
             toAbbrev).drop 1,
         backwardHash :=
           (((fetchedRows st cid (.byHash a) true (limit0.toNat + 1)).reverse).head?).map
             (fun r => r.hash),
         forwardHash := some a } : QueryResult) : Except String QueryResult)
    else Except.ok
      ({ abbreviatedMessages :=
           ((fetchedRows st cid (.byHash a) true (limit0.toNat + 1)).reverse).map toAbbrev,
         backwardHash := none,
         forwardHash := some a } : QueryResult)) = _
  rw [hrows, if_pos (show limit0.toNat < (B.drop (B.length - (limit0.toNat + 1))).length by
    rw [hlen]; omega)]
  congr 2
  · calc ((B.drop (B.length - (limit0.toNat + 1))).map toAbbrev).drop 1
        = ((B.drop (B.length - (limit0.toNat + 1))).drop 1).map toAbbrev :=
          (List.map_drop _ _ _).symm
      _ = (B.drop ((B.length - (limit0.toNat + 1)) + 1)).map toAbbrev := by
          rw [List.drop_drop]
      _ = (B.drop (B.length - limit0.toNat)).map toAbbrev := by
          have harith : (B.length - (limit0.toNat + 1)) + 1 = B.length - limit0.toNat := by
            omega
          rw [harith]
  · rw [List.head?_drop]

/-- C2 counterexample: backward query anchored at d = `[100]` with limit 2 over
the four-message store. The ascending preceding rows are a, b, c; the page
keeps b, c (earliest kept row hash `[98]`), yet backwardHash is `[97]` — the
hash of the dropped row a itself, not of the dropped row's neighbor kept in
the page. -/
theorem c2_counterexample :
    query exStore [5] (.byHash [100]) true 2 =
        .ok { abbreviatedMessages := [{ hash := [98], parents := [[97]] },
                                      { hash := [99], parents := [[97]] }],
              backwardHash := some [97], forwardHash := some [100] } ∧
      (some [97] : Option (List Nat)) ≠ some [98] :=
  ⟨rfl, by decide⟩

theorem c2_backward_query_witness :
    query exStore [5] (.byHash [100]) true 2 =
      .ok { abbreviatedMessages := [{ hash := [98], parents := [[97]] },
                                    { hash := [99], parents := [[97]] }],
            backwardHash := some [97], forwardHash := some [100] } := by
  have h := c2_backward_query exStore [5] [100] 2
    { channelId := [5], hash := [100], parentHashes := [1, 98, 1, 99], height := 2, blob := [3] }
    [{ channelId := [5], hash := [97], parentHashes := [], height := 0, blob := [0] },
     { channelId := [5], hash := [98], parentHashes := [1, 97], height := 1, blob := [2] },
     { channelId := [5], hash := [99], parentHashes := [1, 97], height := 1, blob := [1] }]
    (show (exStore.messages.map (fun r => r.hash)).Nodup from by decide)
    (by decide) rfl rfl (by rfl) (by decide)
  exact h.trans (by rfl)

/-! ### Order lemmas for the CRDT sort -/

theorem blobCmp_swap (a : List Nat) : ∀ b, blobCmp b a = (blobCmp a b).swap := by
  induction a with
  | nil => intro b; cases b <;> rfl
  | cons x as ih =>
    intro b
    cases b with
    | nil => rfl
    | cons y bs =>
      rcases Nat.lt_trichotomy x y with h | h | h
      · have h1 : compare x y = .lt := Nat.compare_eq_lt.mpr h
        have h2 : compare y x = .gt := Nat.compare_eq_gt.mpr h
        simp only [blobCmp, h1, h2]
        rfl
      · subst h
        have h1 : compare x x = .eq := Nat.compare_eq_eq.mpr rfl
        simp only [blobCmp, h1]
        exact ih bs
      · have h1 : compare x y = .gt := Nat.compare_eq_gt.mpr h
        have h2 : compare y x = .lt := Nat.compare_eq_lt.mpr h
        simp only [blobCmp, h1, h2]
        rfl

theorem blobCmp_eq_iff (a : List Nat) : ∀ b, blobCmp a b = .eq ↔ a = b := by
  induction a with
  | nil => intro b; cases b <;> simp [blobCmp]
  | cons x as ih =>
    intro b
    cases b with
    | nil => simp [blobCmp]
    | cons y bs =>
      rcases Nat.lt_trichotomy x y with h | h | h
      · have h1 : compare x y = .lt := Nat.compare_eq_lt.mpr h
        simp [blobCmp, h1]
        omega
      · subst h
        have h1 : compare x x = .eq := Nat.compare_eq_eq.mpr rfl
        simp [blobCmp, h1, ih bs]
      · have h1 : compare x y = .gt := Nat.compare_eq_gt.mpr h
        simp [blobCmp, h1]
        omega

theorem blobCmp_lt_trans (a : List Nat) :
    ∀ b c, blobCmp a b = .lt → blobCmp b c = .lt → blobCmp a c = .lt := by
  induction a with
  | nil =>
    intro b c h1 h2
    cases b with
    | nil => cases h1
    | cons y bs =>
      cases c with
      | nil => cases h2
      | cons z cs => rfl
  | cons x as ih =>
    intro b c h1 h2
    cases b with
    | nil => cases h1
    | cons y bs =>
      cases c with
      | nil => cases h2
      | cons z cs =>
        cases hcxy : compare x y with
        | gt => simp only [blobCmp, hcxy] at h1; cases h1
        | lt =>
          have hxy : x < y := Nat.compare_eq_lt.mp hcxy
          cases hcyz : compare y z with
          | gt => simp only [blobCmp, hcyz] at h2; cases h2
          | lt =>
            have hyz : y < z := Nat.compare_eq_lt.mp hcyz
            simp only [blobCmp, Nat.compare_eq_lt.mpr (show x < z by omega)]
          | eq =>
            have hyz : y = z := Nat.compare_eq_eq.mp hcyz
            simp only [blobCmp, Nat.compare_eq_lt.mpr (show x < z by omega)]
        | eq =>
          have hxy : x = y := Nat.compare_eq_eq.mp hcxy
          simp only [blobCmp, hcxy] at h1
          cases hcyz : compare y z with
          | gt => simp only [blobCmp, hcyz] at h2; cases h2
          | lt =>
            have hyz : y < z := Nat.compare_eq_lt.mp hcyz
            simp only [blobCmp, Nat.compare_eq_lt.mpr (show x < z by omega)]
          | eq =>
            have hyz : y = z := Nat.compare_eq_eq.mp hcyz
            simp only [blobCmp, hcyz] at h2
            simp only [blobCmp, Nat.compare_eq_eq.mpr (show x = z by omega)]
            exact ih bs cs h1 h2

theorem beq_gt_false_iff (o : Ordering) : ((o == Ordering.gt) = false) ↔ o ≠ Ordering.gt := by
  cases o <;> decide

theorem crdtLeB_iff (a b : MsgRow) : crdtLeB a b = true ↔
    (a.height < b.height ∨ (a.height = b.height ∧ blobCmp a.hash b.hash ≠ .gt)) := by
  rw [crdtLeB]
  simp only [Bool.or_eq_true, Bool.and_eq_true, decide_eq_true_eq, Bool.not_eq_true',
    beq_gt_false_iff, ne_eq]

theorem crdtLeB_total (a b : MsgRow) : crdtLeB a b = true ∨ crdtLeB b a = true := by
  rw [crdtLeB_iff, crdtLeB_iff]
  rcases Nat.lt_trichotomy a.height b.height with h | h | h
  · exact Or.inl (Or.inl h)
  · cases hg : blobCmp a.hash b.hash with
    | gt =>
      refine Or.inr (Or.inr ⟨h.symm, ?_⟩)
      rw [blobCmp_swap a.hash b.hash, hg]
      decide
    | lt => exact Or.inl (Or.inr ⟨h, by decide⟩)
    | eq => exact Or.inl (Or.inr ⟨h, by decide⟩)
  · exact Or.inr (Or.inl h)

theorem crdtLeB_trans (a b c : MsgRow) (h1 : crdtLeB a b = true) (h2 : crdtLeB b c = true) :
    crdtLeB a c = true := by
  rw [crdtLeB_iff] at h1 h2 ⊢
  rcases h1 with h1 | ⟨he1, hb1⟩
  · rcases h2 with h2 | ⟨he2, _⟩
    · exact Or.inl (by omega)
    · exact Or.inl (by omega)
  · rcases h2 with h2 | ⟨he2, hb2⟩
    · exact Or.inl (by omega)
    · refine Or.inr ⟨by omega, ?_⟩
      cases hab : blobCmp a.hash b.hash with
      | gt => exact absurd hab hb1
      | eq =>
        rw [(blobCmp_eq_iff a.hash b.hash).mp hab]
        exact hb2
      | lt =>
        cases hbc : blobCmp b.hash c.hash with
        | gt => exact absurd hbc hb2
        | eq =>
          rw [← (blobCmp_eq_iff b.hash c.hash).mp hbc]
          rw [hab]
          decide
        | lt =>
          rw [blobCmp_lt_trans a.hash b.hash c.hash hab hbc]
          decide

theorem insertBy_pairwise (le : α → α → Bool)
    (htot : ∀ a b, le a b = true ∨ le b a = true)
    (htrans : ∀ a b c, le a b = true → le b c = true → le a c = true)
    (x : α) (l : List α) (hl : l.Pairwise (fun a b => le a b = true)) :
    (insertBy le x l).Pairwise (fun a b => le a b = true) := by
  induction l with
  | nil => simp [insertBy]
  | cons y t ih =>
    rw [insertBy]
    have hyt := List.pairwise_cons.mp hl
    split
    · rename_i hxy
      rw [List.pairwise_cons]
      refine ⟨?_, hl⟩
      intro b hb
      rcases List.mem_cons.mp hb with rfl | hbt
      · exact hxy
      · exact htrans x y b hxy (hyt.1 b hbt)
    · rename_i hxy
      have hyx : le y x = true := by
        rcases htot x y with h | h
        · exact absurd h hxy
        · exact h
      rw [List.pairwise_cons]
      refine ⟨?_, ih hyt.2⟩
      intro b hb
      rcases List.mem_cons.mp ((insertBy_perm le x t).mem_iff.mp hb) with rfl | hbt
      · exact hyx
      · exact hyt.1 b hbt

theorem sortBy_pairwise (le : α → α → Bool)
    (htot : ∀ a b, le a b = true ∨ le b a = true)
    (htrans : ∀ a b c, le a b = true → le b c = true → le a c = true) :
    ∀ l : List α, (sortBy le l).Pairwise (fun a b => le a b = true) := by
  intro l
  induction l with
  | nil => exact List.Pairwise.nil
  | cons x t ih =>
    rw [sortBy]
    exact insertBy_pairwise le htot htrans x _ ih

theorem crdt_strict (a b : MsgRow) (hle : crdtLeB a b = true) (hne : a.hash ≠ b.hash) :
    specCrdtLt a b := by
  rcases (crdtLeB_iff a b).mp hle with h | ⟨he, hb⟩
  · exact Or.inl h
  · refine Or.inr ⟨he, ?_⟩
    cases hcmp : blobCmp a.hash b.hash with
    | lt => rfl
    | gt => exact absurd hcmp hb
    | eq => exact absurd ((blobCmp_eq_iff a.hash b.hash).mp hcmp) hne

theorem sorted_unique (l1 l2 : List MsgRow) (hp : l1.Perm l2)
    (hnd : (l1.map (fun r => r.hash)).Nodup)
    (hs1 : l1.Pairwise (fun a b => crdtLeB a b = true))
    (hs2 : l2.Pairwise (fun a b => crdtLeB a b = true)) : l1 = l2 := by
  have hnd2 : (l2.map (fun r => r.hash)).Nodup := ((hp.map _).nodup_iff).mp hnd
  have hne1 : l1.Pairwise (fun a b => a.hash ≠ b.hash) := List.pairwise_map.mp hnd
  have hne2 : l2.Pairwise (fun a b => a.hash ≠ b.hash) := List.pairwise_map.mp hnd2
  haveI : IsAntisymm MsgRow specCrdtLt := by
    refine ⟨?_⟩
    intro a b ha hb
    exfalso
    rcases ha with h | ⟨he, hb1⟩ <;> rcases hb with h2 | ⟨he2, hb2⟩
    · omega
    · omega
    · omega
    · rw [blobCmp_swap a.hash b.hash, hb1] at hb2
      cases hb2
  apply List.eq_of_perm_of_sorted (r := specCrdtLt) hp
  · exact (hs1.and hne1).imp (fun h => crdt_strict _ _ h.1 h.2)
  · exact (hs2.and hne2).imp (fun h => crdt_strict _ _ h.1 h.2)

theorem channel_hash_nodup (st : Store) (cid : List Nat) (hnd : st.MsgNodup) :
    ((channelMessages st cid).map (fun r => r.hash)).Nodup :=
  List.Nodup.sublist ((List.filter_sublist st.messages).map (fun r => r.hash)) hnd

theorem crdtSorted_hash_nodup (st : Store) (cid : List Nat) (hnd : st.MsgNodup) :
    ((crdtSorted st cid).map (fun r => r.hash)).Nodup :=
  (((sortBy_perm crdtLeB (channelMessages st cid)).map _).nodup_iff).mpr
    (channel_hash_nodup st cid hnd)

/-! ### C9: the CRDT order of offset reads -/

/-- C9: for every channel of every well-formed store, offset reads follow one
fixed list L — the channel's rows in strictly increasing (height, byte-wise
hash) order: getHashesAtOffset returns the window [offset, offset+limit) of
L's hashes, getReverseHashesAtOffset the same window of the exactly reversed
sequence, an offset at or beyond the message count yields an empty result,
and the outcome depends only on the set of stored channel rows, not on
insertion order; inserting a(h 0), c(h 1), b(h 1), d(h 2) in that order and
reading forward from offset 0 yields a, b, c, d. -/
theorem c9_crdt_order :
    (∀ (st : Store) (cid : List Nat), st.MsgNodup →
      (∃ L : List MsgRow, L.Perm (channelMessages st cid) ∧ L.Pairwise specCrdtLt ∧
        (∀ offset limit : Nat,
          getHashesAtOffset st cid offset limit =
            ((L.map (fun r => r.hash)).drop offset).take limit ∧
          getReverseHashesAtOffset st cid offset limit =
            (((L.map (fun r => r.hash)).reverse).drop offset).take limit) ∧
        (∀ offset limit : Nat, getMessageCount st cid ≤ offset →
          getHashesAtOffset st cid offset limit = [] ∧
          getReverseHashesAtOffset st cid offset limit = [])) ∧
      (∀ st2 : Store, st2.MsgNodup →
        (channelMessages st cid).Perm (channelMessages st2 cid) →
        ∀ offset limit : Nat,
          getHashesAtOffset st cid offset limit = getHashesAtOffset st2 cid offset limit ∧
          getReverseHashesAtOffset st cid offset limit =
            getReverseHashesAtOffset st2 cid offset limit)) ∧
    (runAdds exMsgs = .ok exStore ∧
      getHashesAtOffset exStore [5] 0 4 = [[97], [98], [99], [100]]) := by
  constructor
  · intro st cid hnd
    constructor
    · refine ⟨crdtSorted st cid, sortBy_perm crdtLeB (channelMessages st cid), ?_, ?_, ?_⟩
      · have hs := sortBy_pairwise crdtLeB crdtLeB_total crdtLeB_trans (channelMessages st cid)
        have hne : (crdtSorted st cid).Pairwise (fun a b => a.hash ≠ b.hash) :=
          List.pairwise_map.mp (crdtSorted_hash_nodup st cid hnd)
        exact (hs.and hne).imp (fun h => crdt_strict _ _ h.1 h.2)
      · intro offset limit
        constructor
        · rw [getHashesAtOffset, List.map_take, List.map_drop]
        · rw [getReverseHashesAtOffset, List.map_take, List.map_drop, List.map_reverse]
      · intro offset limit hoff
        have hlenS : (crdtSorted st cid).length = getMessageCount st cid :=
          sortBy_length crdtLeB (channelMessages st cid)
        constructor
        · rw [getHashesAtOffset, List.drop_eq_nil_of_le (by omega), List.take_nil,
            List.map_nil]
        · rw [getReverseHashesAtOffset,
            List.drop_eq_nil_of_le (by rw [List.length_reverse]; omega), List.take_nil,
            List.map_nil]
    · intro st2 hnd2 hperm offset limit
      have hsorted : crdtSorted st cid = crdtSorted st2 cid := by
        apply sorted_unique
        · exact ((sortBy_perm crdtLeB (channelMessages st cid)).trans hperm).trans
            (sortBy_perm crdtLeB (channelMessages st2 cid)).symm
        · exact crdtSorted_hash_nodup st cid hnd
        · exact sortBy_pairwise crdtLeB crdtLeB_total crdtLeB_trans _
        · exact sortBy_pairwise crdtLeB crdtLeB_total crdtLeB_trans _
      constructor
      · rw [getHashesAtOffset, getHashesAtOffset, hsorted]
      · rw [getReverseHashesAtOffset, getReverseHashesAtOffset, hsorted]
  · exact ⟨rfl, rfl⟩

theorem c9_crdt_order_witness :
    exStore.MsgNodup ∧ exStore2.MsgNodup ∧
      (channelMessages exStore [5]).Perm (channelMessages exStore2 [5]) ∧
      getHashesAtOffset exStore [5] 1 2 = getHashesAtOffset exStore2 [5] 1 2 ∧
      getReverseHashesAtOffset exStore [5] 0 3 = getReverseHashesAtOffset exStore2 [5] 0 3 :=
  ⟨show (exStore.messages.map (fun r => r.hash)).Nodup from by decide,
    show (exStore2.messages.map (fun r => r.hash)).Nodup from by decide,
    by decide,
    ((c9_crdt_order.1 exStore [5]
        (show (exStore.messages.map (fun r => r.hash)).Nodup from by decide)).2 exStore2
      (show (exStore2.messages.map (fun r => r.hash)).Nodup from by decide) (by decide) 1 2).1,
    ((c9_crdt_order.1 exStore [5]
        (show (exStore.messages.map (fun r => r.hash)).Nodup from by decide)).2 exStore2
      (show (exStore2.messages.map (fun r => r.hash)).Nodup from by decide) (by decide) 0 3).2⟩

/-! ### C4: leaves versus the parent-edge relation -/

theorem encode_ok_eq (l : List (List Nat)) (enc : List Nat)
    (h : encodeHashList l = .ok enc) : enc = encBody l := by
  rw [encodeHashList] at h
  by_cases hany : l.any (fun elem => decide (255 < elem.length)) = true
  · rw [if_pos hany] at h
    cases h
  · rw [if_neg hany] at h
    cases h
    rfl

theorem replaceMsg_fresh (tbl : List MsgRow) (r : MsgRow)
    (hf : ∀ q ∈ tbl, q.hash ≠ r.hash) : replaceMsg tbl r = tbl ++ [r] := by
  rw [replaceMsg]
  congr 1
  apply List.filter_eq_self.mpr
  intro q hq
  simpa using hf q hq

theorem foldl_replaceParent_mem (c0 : List Nat) :
    ∀ (L : List (List Nat)) (T : List ParentRow) (c h : List Nat),
      (∃ p ∈ L.foldl (fun tbl ph => replaceParent tbl { channelId := c0, hash := ph }) T,
        p.channelId = c ∧ p.hash = h) ↔
      ((h ∈ L ∧ c = c0) ∨ (h ∉ L ∧ ∃ p ∈ T, p.channelId = c ∧ p.hash = h)) := by
  intro L
  induction L with
  | nil =>
    intro T c h
    simp
  | cons l0 rest ih =>
    intro T c h
    rw [List.foldl_cons, ih]
    have hrep : (∃ p ∈ replaceParent T { channelId := c0, hash := l0 },
        p.channelId = c ∧ p.hash = h) ↔
        ((h = l0 ∧ c = c0) ∨ (h ≠ l0 ∧ ∃ p ∈ T, p.channelId = c ∧ p.hash = h)) := by
      rw [replaceParent]
      constructor
      · rintro ⟨p, hp, hpc, hph⟩
        rcases List.mem_append.mp hp with hpf | hps
        · obtain ⟨hpT, hpne⟩ := List.mem_filter.mp hpf
          have hne : p.hash ≠ l0 := by simpa using hpne
          exact Or.inr ⟨hph ▸ hne, p, hpT, hpc, hph⟩
        · have hpe : p = { channelId := c0, hash := l0 } := by simpa using hps
          subst hpe
          exact Or.inl ⟨hph.symm, hpc.symm⟩
      · rintro (⟨he, hc⟩ | ⟨hne, p, hpT, hpc, hph⟩)
        · refine ⟨{ channelId := c0, hash := l0 }, ?_, hc.symm, he.symm⟩
          exact List.mem_append.mpr (Or.inr (List.mem_singleton.mpr rfl))
        · refine ⟨p, ?_, hpc, hph⟩
          refine List.mem_append.mpr (Or.inl (List.mem_filter.mpr ⟨hpT, ?_⟩))
          simp [hph, hne]
    rw [hrep]
    simp only [List.mem_cons]
    by_cases h1 : h ∈ rest <;> by_cases h2 : h = l0 <;> simp [h1, h2] <;> tauto

theorem runAdds_inv :
    ∀ (suffix P : List Message) (st0 st : Store),
      st0.messages = P.map rowOf →
      (∀ (c h : List Nat), (∃ p ∈ st0.parents, p.channelId = c ∧ p.hash = h) ↔
        ∃ m ∈ P, m.channelId = c ∧ h ∈ m.parents) →
      ((P ++ suffix).map (fun m => m.hash)).Nodup →
      (∀ m1 ∈ P ++ suffix, ∀ m2 ∈ P ++ suffix, ∀ h ∈ m1.parents,
        h ∈ m2.parents → m1.channelId = m2.channelId) →
      suffix.foldlM (fun s m => addMessage s m) st0 = .ok st →
      st.messages = (P ++ suffix).map rowOf ∧
        (∀ (c h : List Nat), (∃ p ∈ st.parents, p.channelId = c ∧ p.hash = h) ↔
          ∃ m ∈ P ++ suffix, m.channelId = c ∧ h ∈ m.parents) := by
  intro suffix
  induction suffix with
  | nil =>
    intro P st0 st hmsg hpar _ _ hrun
    rw [List.foldlM_nil] at hrun
    have hst : st0 = st := by
      injection hrun
    subst hst
    simpa using ⟨hmsg, hpar⟩
  | cons m rest ih =>
    intro P st0 st hmsg hpar hnd hch hrun
    rw [List.foldlM_cons] at hrun
    cases hadd : addMessage st0 m with
    | error e =>
      rw [hadd] at hrun
      cases hrun
    | ok st1 =>
      rw [hadd] at hrun
      replace hrun : List.foldlM (fun s m => addMessage s m) st1 rest = .ok st := hrun
      -- unpack the successful addMessage
      rw [addMessage] at hadd
      cases henc : encodeHashList m.parents with
      | error e =>
        rw [henc] at hadd
        cases hadd
      | ok enc =>
        rw [henc] at hadd
        have henc2 : enc = encBody m.parents := encode_ok_eq m.parents enc henc
        subst henc2
        have hst1 : st1 =
            { messages := replaceMsg st0.messages (rowOf m),
              parents := m.parents.foldl
                (fun tbl p => replaceParent tbl { channelId := m.channelId, hash := p })
                st0.parents } := by
          injection hadd with h1
          exact h1.symm
        -- freshness of m.hash against P
        have hfresh : ∀ m1 ∈ P, m1.hash ≠ m.hash := by
          intro m1 hm1 he
          rw [List.map_append, List.nodup_append] at hnd
          exact (List.disjoint_left.mp hnd.2.2)
            (List.mem_map_of_mem (fun m => m.hash) hm1)
            (he ▸ List.mem_map_of_mem (fun m => m.hash) (List.mem_cons_self m rest))
        have hmsg1 : st1.messages = (P ++ [m]).map rowOf := by
          rw [hst1]
          show replaceMsg st0.messages (rowOf m) = _
          rw [hmsg, replaceMsg_fresh _ _ ?_, List.map_append, List.map_singleton]
          intro q hq
          obtain ⟨m1, hm1, rfl⟩ := List.mem_map.mp hq
          exact hfresh m1 hm1
        have hpar1 : ∀ (c h : List Nat),
            (∃ p ∈ st1.parents, p.channelId = c ∧ p.hash = h) ↔
              ∃ m1 ∈ P ++ [m], m1.channelId = c ∧ h ∈ m1.parents := by
          intro c h
          rw [hst1]
          show (∃ p ∈ m.parents.foldl
              (fun tbl ph => replaceParent tbl { channelId := m.channelId, hash := ph })
              st0.parents, p.channelId = c ∧ p.hash = h) ↔ _
          rw [foldl_replaceParent_mem, hpar]
          constructor
          · rintro (⟨hin, rfl⟩ | ⟨hnotin, m1, hm1, hc1, hp1⟩)
            · exact ⟨m, List.mem_append.mpr (Or.inr (List.mem_singleton.mpr rfl)), rfl, hin⟩
            · exact ⟨m1, List.mem_append.mpr (Or.inl hm1), hc1, hp1⟩
          · rintro ⟨m1, hm1, hc1, hp1⟩
            rcases List.mem_append.mp hm1 with hm1P | hm1m
            · by_cases hin : h ∈ m.parents
              · have hceq : m1.channelId = m.channelId :=
                  hch m1 (List.mem_append.mpr (Or.inl hm1P)) m
                    (List.mem_append.mpr (Or.inr (List.mem_cons_self m rest))) h hp1 hin
                exact Or.inl ⟨hin, by rw [← hc1, hceq]⟩
              · exact Or.inr ⟨hin, m1, hm1P, hc1, hp1⟩
            · have hm1e : m1 = m := List.mem_singleton.mp hm1m
              subst hm1e
              exact Or.inl ⟨hp1, hc1.symm⟩
        have hres := ih (P ++ [m]) st1 st hmsg1 hpar1
          (by rw [List.append_assoc, List.singleton_append]; exact hnd)
          (by rw [List.append_assoc, List.singleton_append]; exact hch) hrun
        rw [List.append_assoc, List.singleton_append] at hres
        exact hres

/-- C4 (amended): in every store reached by successful addMessage calls whose
message hashes are pairwise distinct and in which no hash is referenced as a
parent from two different channels, getLeafHashes(channelId) returns exactly
the hashes of the messages stored in that channel that are not referenced as
a parent by any message of that same channel (so parents of a newly added
message leave the leaf set and the new message is a leaf while unreferenced).
Without the single-channel proviso the claim fails: the parents table is
keyed by hash alone, so a later reference from another channel re-attributes
the edge row (see the counterexample). -/
theorem c4_leaf_characterization (ms : List Message) (st : Store)
    (hrun : runAdds ms = .ok st)
    (hnd : (ms.map (fun m => m.hash)).Nodup)
    (hch : ∀ m1 ∈ ms, ∀ m2 ∈ ms, ∀ h ∈ m1.parents, h ∈ m2.parents →
      m1.channelId = m2.channelId) :
    ∀ cid h, h ∈ getLeafHashes st cid ↔
      (storedInChannel st cid h = true ∧ referencedInChannel st cid h = false) := by
  have hres := runAdds_inv ms [] emptyStore st rfl (by simp [emptyStore])
    (by simpa using hnd) (by simpa using hch) hrun
  rw [List.nil_append] at hres
  obtain ⟨hmsg, hpar⟩ := hres
  intro cid h
  have href : ∀ x : List Nat, referencedInChannel st cid x = true ↔
      ∃ m ∈ ms, m.channelId = cid ∧ x ∈ m.parents := by
    intro x
    rw [referencedInChannel, List.any_eq_true]
    constructor
    · rintro ⟨r, hr, hp⟩
      rw [hmsg] at hr
      obtain ⟨m, hm, rfl⟩ := List.mem_map.mp hr
      simp only [Bool.and_eq_true, beq_iff_eq] at hp
      refine ⟨m, hm, hp.1, ?_⟩
      have hcont := hp.2
      rw [show (rowOf m).parentHashes = encBody m.parents from rfl, decode_encBody] at hcont
      exact List.elem_iff.mp hcont
    · rintro ⟨m, hm, hc, hx⟩
      refine ⟨rowOf m, by rw [hmsg]; exact List.mem_map_of_mem _ hm, ?_⟩
      simp only [Bool.and_eq_true, beq_iff_eq]
      refine ⟨hc, ?_⟩
      rw [show (rowOf m).parentHashes = encBody m.parents from rfl, decode_encBody]
      exact List.elem_iff.mpr hx
  have hbridge : ∀ x : List Nat, parentsHas st cid x = referencedInChannel st cid x := by
    intro x
    rw [Bool.eq_iff_iff, parentsHas, List.any_eq_true, href]
    constructor
    · rintro ⟨p, hp, hpc⟩
      simp only [Bool.and_eq_true, beq_iff_eq] at hpc
      exact (hpar cid x).mp ⟨p, hp, hpc.1, hpc.2⟩
    · intro hx
      obtain ⟨p, hp, hc, hh⟩ := (hpar cid x).mpr hx
      exact ⟨p, hp, by simp [hc, hh]⟩
  have hstored : storedInChannel st cid h = true ↔
      ∃ r ∈ st.messages, r.channelId = cid ∧ r.hash = h := by
    rw [storedInChannel, List.any_eq_true]
    constructor
    · rintro ⟨r, hr, hrc⟩
      simp only [Bool.and_eq_true, beq_iff_eq] at hrc
      exact ⟨r, hr, hrc⟩
    · rintro ⟨r, hr, hc, hh⟩
      exact ⟨r, hr, by simp [hc, hh]⟩
  constructor
  · intro hmem
    rw [getLeafHashes] at hmem
    obtain ⟨r, hrf, rfl⟩ := List.mem_map.mp hmem
    obtain ⟨hrch, hrp⟩ := List.mem_filter.mp hrf
    obtain ⟨hrmem, hrcid⟩ := List.mem_filter.mp hrch
    constructor
    · exact hstored.mpr ⟨r, hrmem, by simpa using hrcid, rfl⟩
    · have hph : parentsHas st cid r.hash = false := by simpa using hrp
      rw [← hbridge]
      exact hph
  · rintro ⟨hs, hrf⟩
    obtain ⟨r, hrmem, hc, hh⟩ := hstored.mp hs
    subst hh
    rw [getLeafHashes]
    apply List.mem_map.mpr
    refine ⟨r, List.mem_filter.mpr ⟨List.mem_filter.mpr ⟨hrmem, by simp [hc]⟩, ?_⟩, rfl⟩
    rw [hbridge]
    simp [hrf]

/-- C4 counterexample: running addMessage for p = `[1]` (channel `[0]`), a
child `[2]` of p in channel `[0]`, then a message `[3]` of channel `[7]` that
also names `[1]` as a parent, produces a reachable state in which `[1]` is
returned by getLeafHashes for channel `[0]` even though the stored message
`[2]` of that same channel references `[1]` as a parent. -/
theorem c4_counterexample :
    runAdds c4Msgs = .ok c4Store ∧
      [1] ∈ getLeafHashes c4Store [0] ∧
      referencedInChannel c4Store [0] [1] = true :=
  ⟨rfl, by decide, by decide⟩

theorem c4_leaf_characterization_witness :
    (exMsgs.map (fun m => m.hash)).Nodup ∧ [100] ∈ getLeafHashes exStore [5] :=
  ⟨by decide,
    (c4_leaf_characterization exMsgs exStore rfl (by decide) (by decide) [5] [100]).mpr
      ⟨by decide, by decide⟩⟩
